import Mathlib

/-!
Verification of the appointment-timer application (src/main.py).

The development shallowly embeds the billing calculator
(calculate_duration_minutes, calculate_cost), the module-level data store
(clients, appointments, the two id counters), the persistence layer
(save_data, load_data) and the appointment-list query (load_appointments)
as executable Lean definitions, and proves the specified properties about
them.

Modelling conventions:
* Python ints are Int (arbitrary precision in both languages); Python
  floats are idealised as exact rationals ℚ.
* Python floor division // is Int.fdiv; division by zero raises
  ZeroDivisionError, so calculate_cost returns Except.  The int(...)
  truncation of a nonnegative float is Int.tdiv on the underlying exact
  value.
* datetime.time values are Time records (hour, minute, second); the
  constructor of datetime.time enforces the ranges captured by Time.valid.
  Comparison of time objects is lexicographic on the components.
* Python dicts are association lists in insertion order (the Python 3.7+
  guarantee); dict assignment d[k] = v is dictInsert, which overwrites in
  place or appends.
* JSON files are modelled at the document level: a file is absent, present
  but unparseable (json.load raises JSONDecodeError), or present with a
  parsed document.  JSON round-trips strings, integers and finite floats
  exactly, so those fields serialise as themselves; only the time fields
  undergo a real format conversion (strftime and strptime with format
  HH colon MM colon SS), which is modelled at the character level.
* The stored appointment date is the string produced by
  QDate.toString with format yyyy-MM-dd and is parsed back with
  datetime.strptime for the range filter; that conversion is a bijection
  between valid calendar dates and their strings, so the date field is
  modelled as the parsed Date value throughout.
-/

namespace ApptTimer

/-- The Python-level failure outcomes of the modelled operations:
the two QMessageBox warning early-returns and the three exception types
the modelled code can raise. -/
inductive Failure where
  | warningNameRequired
  | warningNoClientSelected
  | zeroDivisionError
  | keyError
  | jsonDecodeError
  | valueError
  deriving DecidableEq

/-- A datetime.time value: hour, minute, second components. -/
structure Time where
  hour : Nat
  minute : Nat
  second : Nat
  deriving DecidableEq

/-- The range invariant enforced by the datetime.time constructor. -/
def Time.valid (t : Time) : Prop :=
  t.hour < 24 ∧ t.minute < 60 ∧ t.second < 60

instance (t : Time) : Decidable t.valid := by
  unfold Time.valid; infer_instance

/-- Seconds since midnight of a time-of-day value. -/
def Time.secs (t : Time) : Nat :=
  t.hour * 3600 + t.minute * 60 + t.second

/-- Python comparison of datetime.time values: lexicographic on
(hour, minute, second). -/
def Time.ltb (a b : Time) : Bool :=
  decide (a.hour < b.hour) ||
    (a.hour == b.hour &&
      (decide (a.minute < b.minute) ||
        (a.minute == b.minute && decide (a.second < b.second))))

/-- On valid times the lexicographic comparison agrees with the
seconds-since-midnight order. -/
theorem Time.ltb_iff_secs {a b : Time} (ha : a.valid) (hb : b.valid) :
    a.ltb b = true ↔ a.secs < b.secs := by
  obtain ⟨ha1, ha2, ha3⟩ := ha
  obtain ⟨hb1, hb2, hb3⟩ := hb
  simp only [Time.ltb, Time.secs, Bool.or_eq_true, Bool.and_eq_true,
    decide_eq_true_eq, beq_iff_eq]
  omega

/-- Embedding of calculate_duration_minutes (src/main.py lines 17-23).
Both times are attached to the same reference day (datetime.combine with
datetime.today); when end_time compares below start_time one day of 86400
seconds is added to the end instant; the nonnegative timedelta in seconds
is divided by 60 and truncated toward zero by int(...), which is
Int.tdiv. -/
def calculate_duration_minutes (start_time end_time : Time) : Int :=
  let start_dt : Int := start_time.secs
  let end_dt : Int := end_time.secs
  let end_dt : Int := if end_time.ltb start_time then end_dt + 86400 else end_dt
  (end_dt - start_dt).tdiv 60

/-- The billed minutes expression of calculate_cost (src/main.py line 27):
duration rounded up to the nearest multiple of the increment using the
Python floor-division idiom. -/
def rounded_minutes (duration_minutes time_increment_minutes : Int) : Int :=
  ((duration_minutes + time_increment_minutes - 1).fdiv time_increment_minutes) *
    time_increment_minutes

/-- Embedding of calculate_cost (src/main.py lines 25-28).  The function
performs no argument validation: a zero increment makes the floor division
raise ZeroDivisionError, any other increment (negative included) produces
a value.  Python // is floor division, Int.fdiv. -/
def calculate_cost (duration_minutes : Int) (hourly_rate : ℚ)
    (time_increment_minutes : Int) : Except Failure ℚ :=
  if time_increment_minutes = 0 then .error .zeroDivisionError
  else .ok (hourly_rate * ((rounded_minutes duration_minutes time_increment_minutes : ℚ) / 60))

/-- Ceiling division by a positive integer is the Python floor-division
idiom (a + b - 1) // b. -/
theorem ceil_div_eq_fdiv (a b : Int) (hb : 1 ≤ b) :
    ⌈(a : ℚ) / (b : ℚ)⌉ = (a + b - 1).fdiv b := by
  rw [Int.fdiv_eq_ediv _ (by omega)]
  have hb0 : (0 : ℚ) < (b : ℚ) := by exact_mod_cast hb
  have hmod : 0 ≤ (a + b - 1) % b ∧ (a + b - 1) % b < b :=
    ⟨Int.emod_nonneg _ (by omega), Int.emod_lt_of_pos _ (by omega)⟩
  have hdm := Int.ediv_add_emod (a + b - 1) b
  apply le_antisymm
  · rw [Int.ceil_le, div_le_iff₀ hb0]
    have : a ≤ ((a + b - 1) / b) * b := by nlinarith [hmod.1, hmod.2, hdm]
    calc (a : ℚ) ≤ (((a + b - 1) / b) * b : Int) := by exact_mod_cast this
    _ = ((a + b - 1) / b : Int) * (b : ℚ) := by push_cast; ring
  · have h1 : ((a + b - 1) / b : Int) - 1 < ⌈(a : ℚ) / (b : ℚ)⌉ := by
      rw [Int.lt_ceil, lt_div_iff₀ hb0]
      have : ((a + b - 1) / b - 1) * b < a := by nlinarith [hmod.1, hmod.2, hdm]
      calc ((a + b - 1) / b - 1 : Int) * (b : ℚ)
          = (((a + b - 1) / b - 1) * b : Int) := by push_cast; ring
      _ < (a : Int) := by exact_mod_cast this
    omega

/-- C1: for every duration ≥ 0, rate ≥ 0 and increment ≥ 1, calculate_cost
returns rate * (ceil(duration / increment) * increment) / 60, the billed
minutes are a multiple of the increment, and a zero duration costs 0. -/
theorem calculate_cost_spec (d : Int) (rate : ℚ) (inc : Int)
    (hd : 0 ≤ d) (hrate : 0 ≤ rate) (hinc : 1 ≤ inc) :
    calculate_cost d rate inc =
      Except.ok (rate * ((⌈(d : ℚ) / (inc : ℚ)⌉ * inc : Int) : ℚ) / 60) ∧
    inc ∣ rounded_minutes d inc ∧
    calculate_cost 0 rate inc = Except.ok 0 := by
  have hne : inc ≠ 0 := by omega
  refine ⟨?_, ?_, ?_⟩
  · simp only [calculate_cost, if_neg hne, rounded_minutes,
      ceil_div_eq_fdiv d inc hinc]
    congr 1
    push_cast
    ring
  · exact dvd_mul_left inc _
  · simp only [calculate_cost, if_neg hne, rounded_minutes]
    have : (0 + inc - 1).fdiv inc = 0 := by
      rw [Int.fdiv_eq_ediv _ (by omega)]
      exact Int.ediv_eq_zero_of_lt (by omega) (by omega)
    rw [this]
    norm_num

/-- Witness for C1 at the scenario of the specification: 47 minutes at
rate 30 with increment 6 bill as 48 minutes, costing 24. -/
theorem calculate_cost_spec_witness :
    (0 : Int) ≤ 47 ∧ (0 : ℚ) ≤ 30 ∧ (1 : Int) ≤ 6 ∧
    calculate_cost 47 30 6 =
      Except.ok (30 * ((⌈(47 : ℚ) / (6 : ℚ)⌉ * 6 : Int) : ℚ) / 60) := by
  refine ⟨by norm_num, by norm_num, by norm_num, ?_⟩
  exact (calculate_cost_spec 47 30 6 (by norm_num) (by norm_num) (by norm_num)).1

/-- C6 counterexample: with the negative increment -1 (and duration 10,
rate 1) calculate_cost does not fail at all, let alone with an
InvalidArgument error: it silently returns the value 2/15. -/
theorem calculate_cost_no_validation_counterexample :
    calculate_cost 10 1 (-1) = Except.ok (2 / 15) := by
  have h : rounded_minutes 10 (-1) = 8 := by decide
  simp only [calculate_cost, rounded_minutes] at h ⊢
  rw [if_neg (by decide), h]
  norm_num

/-- calculate_cost on a zero increment raises ZeroDivisionError. -/
theorem calculate_cost_zero (d : Int) (rate : ℚ) :
    calculate_cost d rate 0 = Except.error Failure.zeroDivisionError := by
  simp [calculate_cost]

/-- calculate_cost on any nonzero increment returns its value. -/
theorem calculate_cost_ok (d : Int) (rate : ℚ) (inc : Int) (h : inc ≠ 0) :
    calculate_cost d rate inc =
      Except.ok (rate * ((rounded_minutes d inc : ℚ) / 60)) := by
  simp [calculate_cost, h]

/-- C6 amended: calculate_cost performs no increment validation.  A zero
increment raises ZeroDivisionError from the floor division; every nonzero
increment (negative ones included) yields a value; in particular it
succeeds whenever increment ≥ 1. -/
theorem calculate_cost_error_behavior (d : Int) (rate : ℚ) (inc : Int) :
    (inc = 0 → calculate_cost d rate inc = Except.error Failure.zeroDivisionError) ∧
    (inc ≠ 0 → calculate_cost d rate inc =
      Except.ok (rate * ((rounded_minutes d inc : ℚ) / 60))) := by
  constructor
  · intro h
    subst h
    exact calculate_cost_zero d rate
  · intro h
    exact calculate_cost_ok d rate inc h

/-- Witness for the amended C6: increment 0 raises ZeroDivisionError,
increment 6 succeeds. -/
theorem calculate_cost_error_behavior_witness :
    calculate_cost 47 30 0 = Except.error Failure.zeroDivisionError ∧
    calculate_cost 47 30 6 = Except.ok (30 * ((rounded_minutes 47 6 : ℚ) / 60)) :=
  ⟨(calculate_cost_error_behavior 47 30 0).1 rfl,
   (calculate_cost_error_behavior 47 30 6).2 (by decide)⟩

/-- The midnight time-of-day value 00:00:00. -/
def midnight : Time := ⟨0, 0, 0⟩

/-- Valid times have at most 86399 seconds since midnight. -/
theorem Time.secs_lt {t : Time} (h : t.valid) : t.secs ≤ 86399 := by
  obtain ⟨h1, h2, h3⟩ := h
  unfold Time.secs
  omega

/-- calculate_duration_minutes unfolded to Euclidean division on Int:
the truncating int(...) agrees with floor division because the adjusted
difference is never negative on valid times. -/
theorem calculate_duration_minutes_eq_ediv (s e : Time)
    (hs : s.valid) (he : e.valid) :
    calculate_duration_minutes s e =
      ((if e.secs < s.secs then (e.secs + 86400 : Int) else (e.secs : Int)) -
        (s.secs : Int)) / 60 := by
  have hsle := Time.secs_lt hs
  have hlt : e.ltb s = true ↔ e.secs < s.secs := Time.ltb_iff_secs he hs
  show ((if e.ltb s = true then (e.secs : Int) + 86400 else (e.secs : Int)) -
      (s.secs : Int)).tdiv 60 =
    ((if e.secs < s.secs then (e.secs + 86400 : Int) else (e.secs : Int)) -
      (s.secs : Int)) / 60
  by_cases h : e.secs < s.secs
  · rw [if_pos (hlt.mpr h), if_pos h, Int.tdiv_eq_ediv (by omega) (by omega)]
  · rw [if_neg (fun hb => h (hlt.mp hb)), if_neg h,
      Int.tdiv_eq_ediv (by omega) (by omega)]

/-- C2 (amended): calculate_duration_minutes is the floor of the elapsed
seconds divided by 60, with the end treated as one calendar day later when
it compares below the start; equal inputs give 0; for end at or after
start it is the floored same-day difference; and for start after end the
wrap-around decomposition through midnight holds when both times fall on
a whole minute (zero seconds component). -/
theorem calculate_duration_minutes_spec (s e : Time)
    (hs : s.valid) (he : e.valid) :
    calculate_duration_minutes s e =
      ⌊(((if e.secs < s.secs then (e.secs + 86400 : Int) else (e.secs : Int)) -
          (s.secs : Int) : Int) : ℚ) / 60⌋ ∧
    (e = s → calculate_duration_minutes s e = 0) ∧
    (s.secs ≤ e.secs →
      calculate_duration_minutes s e = ((e.secs : Int) - (s.secs : Int)) / 60) ∧
    (e.secs < s.secs → s.second = 0 → e.second = 0 →
      calculate_duration_minutes s e =
        calculate_duration_minutes s midnight +
          calculate_duration_minutes midnight e) := by
  have hmain := calculate_duration_minutes_eq_ediv s e hs he
  refine ⟨?_, ?_, ?_, ?_⟩
  · rw [hmain]
    have h60 : ((60 : ℚ)) = ((60 : ℕ) : ℚ) := by norm_num
    rw [h60, Rat.floor_intCast_div_natCast]
    norm_num
  · intro h
    subst h
    rw [hmain, if_neg (lt_irrefl _)]
    omega
  · intro h
    rw [hmain, if_neg (by omega)]
  · intro hlt hs0 he0
    have hmid : midnight.valid := by refine ⟨?_, ?_, ?_⟩ <;> norm_num [midnight]
    have hspos : 0 < s.secs := by omega
    have h1 : calculate_duration_minutes s midnight =
        ((86400 : Int) - (s.secs : Int)) / 60 := by
      rw [calculate_duration_minutes_eq_ediv s midnight hs hmid]
      have hms : midnight.secs = 0 := rfl
      rw [hms, if_pos hspos]
      norm_num
    have h2 : calculate_duration_minutes midnight e = ((e.secs : Int)) / 60 := by
      rw [calculate_duration_minutes_eq_ediv midnight e hmid he]
      have hms : midnight.secs = 0 := rfl
      rw [hms, if_neg (by omega)]
      norm_num
    rw [hmain, if_pos hlt, h1, h2]
    have hsm : (s.secs : Int) % 60 = 0 := by
      unfold Time.secs
      push_cast [hs0]
      omega
    have hem : (e.secs : Int) % 60 = 0 := by
      unfold Time.secs
      push_cast [he0]
      omega
    have hsle := Time.secs_lt hs
    omega

/-- C2 counterexample: for start 23:59:30 and end 00:00:45 the code
computes 1 minute, while the sum of the whole minutes from the start to
midnight and from midnight to the end is 0. -/
theorem calculate_duration_minutes_wrap_counterexample :
    calculate_duration_minutes ⟨23, 59, 30⟩ ⟨0, 0, 45⟩ = 1 ∧
    calculate_duration_minutes ⟨23, 59, 30⟩ midnight +
      calculate_duration_minutes midnight ⟨0, 0, 45⟩ = 0 := by
  constructor <;> decide

/-- C9: on valid times the computed duration always lies between 0 and
1439 minutes inclusive; the function is total (the model has no failure
outcome and the Python code has no raising operation on time objects). -/
theorem calculate_duration_minutes_bounds (s e : Time)
    (hs : s.valid) (he : e.valid) :
    0 ≤ calculate_duration_minutes s e ∧
      calculate_duration_minutes s e ≤ 1439 := by
  rw [calculate_duration_minutes_eq_ediv s e hs he]
  have h1 := Time.secs_lt hs
  have h2 := Time.secs_lt he
  by_cases h : e.secs < s.secs
  · rw [if_pos h]
    omega
  · rw [if_neg h]
    omega

/-- Witness for C9 at the specification scenario 23:50:00 to 00:10:00. -/
theorem calculate_duration_minutes_bounds_witness :
    0 ≤ calculate_duration_minutes ⟨23, 50, 0⟩ ⟨0, 10, 0⟩ ∧
      calculate_duration_minutes ⟨23, 50, 0⟩ ⟨0, 10, 0⟩ ≤ 1439 :=
  calculate_duration_minutes_bounds _ _ (by decide) (by decide)

/-- Witness for the amended C2 at a wrap-around instance with whole-minute
times: 23:50:00 to 00:10:00. -/
theorem calculate_duration_minutes_spec_witness :
    calculate_duration_minutes ⟨23, 50, 0⟩ ⟨0, 10, 0⟩ = ⌊((1200 : Int) : ℚ) / 60⌋ ∧
    calculate_duration_minutes ⟨23, 50, 0⟩ ⟨0, 10, 0⟩ =
      calculate_duration_minutes ⟨23, 50, 0⟩ midnight +
        calculate_duration_minutes midnight ⟨0, 10, 0⟩ := by
  have h := calculate_duration_minutes_spec ⟨23, 50, 0⟩ ⟨0, 10, 0⟩
    (by decide) (by decide)
  refine ⟨?_, h.2.2.2 (by decide) rfl rfl⟩
  rw [h.1]
  norm_num [Time.secs]

/-- A client record: the dict built at src/main.py line 203. -/
structure Client where
  name : String
  phone : String
  email : String
  deriving DecidableEq

/-- A calendar date, the parsed form of a YYYY-MM-DD string.  The program
generates the string with QDate.toString and parses it back with
datetime.strptime; that conversion is a bijection on valid dates, so the
date is modelled in parsed form. -/
structure Date where
  year : Nat
  month : Nat
  day : Nat
  deriving DecidableEq

/-- Python comparison of date objects: lexicographic on
(year, month, day). -/
def Date.ltb (a b : Date) : Bool :=
  decide (a.year < b.year ∨ (a.year = b.year ∧
    (a.month < b.month ∨ (a.month = b.month ∧ a.day < b.day))))

/-- Nonstrict lexicographic comparison of dates. -/
def Date.leb (a b : Date) : Bool :=
  Date.ltb a b || decide (a = b)

/-- The date order is total: not strictly above means at or below. -/
theorem Date.not_ltb (a b : Date) : Date.ltb a b = false ↔ Date.leb b a = true := by
  cases a with
  | mk ay am ad =>
    cases b with
    | mk «by» bm bd =>
      simp only [Date.ltb, Date.leb, Bool.or_eq_true, decide_eq_true_eq,
        decide_eq_false_iff_not, Date.mk.injEq]
      constructor
      · intro h
        omega
      · intro h
        omega

/-- An appointment record: the dict built at src/main.py lines 434-441. -/
structure Appt where
  client_id : String
  date : Date
  start : Time
  «end» : Time
  duration : Int
  cost : ℚ
  deriving DecidableEq

/-- An appointment as written to appointments.json: the start and end
times replaced by their strftime strings (src/main.py lines 71-77). -/
structure SavedAppt where
  client_id : String
  date : Date
  start : String
  «end» : String
  duration : Int
  cost : ℚ
  deriving DecidableEq

/-- A Python dict as an association list in insertion order (the Python
3.7+ iteration-order guarantee). -/
abbrev Dict (α : Type) := List (String × α)

/-- Python dict assignment d[k] = v: overwrite in place when the key is
present, otherwise append at the end. -/
def dictInsert {α : Type} (d : Dict α) (k : String) (v : α) : Dict α :=
  if d.any (fun p => p.1 == k) then
    d.map (fun p => if p.1 == k then (k, v) else p)
  else d ++ [(k, v)]

/-- The module-level mutable state of the program (src/main.py lines
40-43): the two collections and the two id counters. -/
structure StoreState where
  clients : Dict Client
  appointments : Dict Appt
  client_counter : Nat
  appointment_counter : Nat
  deriving DecidableEq

/-- The state at process start before any load: empty collections,
counters at 1. -/
def initialState : StoreState := ⟨[], [], 1, 1⟩

/-- The numeric value of a decimal digit character (Python semantics of
int() on a single digit, via the code point minus 48). -/
def charVal (c : Char) : Nat := c.toNat - 48

/-- Reference decimal printer: the decimal digits of n, most significant
first, prepended to ds.  It mirrors Nat.toDigitsCore with the fuel
removed. -/
def recDigits (n : Nat) (ds : List Char) : List Char :=
  let d := Nat.digitChar (n % 10)
  if h : n / 10 = 0 then d :: ds
  else recDigits (n / 10) (d :: ds)
termination_by n
decreasing_by
  exact Nat.div_lt_self (by omega) (by omega)

/-- With enough fuel, the fueled core printer agrees with the reference
printer. -/
theorem toDigitsCore_eq_recDigits (fuel : Nat) :
    ∀ (n : Nat) (ds : List Char), n < fuel →
      Nat.toDigitsCore 10 fuel n ds = recDigits n ds := by
  induction fuel with
  | zero => omega
  | succ f ih =>
    intro n ds h
    rw [recDigits]
    by_cases h0 : n / 10 = 0
    · simp [Nat.toDigitsCore, h0]
    · simp only [Nat.toDigitsCore, if_neg h0, dif_neg h0]
      exact ih (n / 10) _ (by omega)

/-- The decimal representation used by Nat.repr is the reference
printer. -/
theorem repr_data (n : Nat) : (Nat.repr n).data = recDigits n [] := by
  show (List.asString (Nat.toDigitsCore 10 (n + 1) n [])).data = recDigits n []
  rw [toDigitsCore_eq_recDigits (n + 1) n [] (Nat.lt_succ_self n)]
  rfl

/-- The reference printer only prepends: the accumulator is appended to
the digits of n. -/
theorem recDigits_append (n : Nat) (ds : List Char) :
    recDigits n ds = recDigits n [] ++ ds := by
  induction n using Nat.strong_induction_on generalizing ds with
  | _ n ih =>
    by_cases h0 : n / 10 = 0
    · have hL : recDigits n ds = Nat.digitChar (n % 10) :: ds := by
        rw [recDigits]
        simp [h0]
      have hR : recDigits n [] = [Nat.digitChar (n % 10)] := by
        rw [recDigits]
        simp [h0]
      rw [hL, hR]
      rfl
    · have hL : recDigits n ds = recDigits (n / 10) (Nat.digitChar (n % 10) :: ds) := by
        rw [recDigits]
        simp [h0]
      have hR : recDigits n [] = recDigits (n / 10) [Nat.digitChar (n % 10)] := by
        rw [recDigits]
        simp [h0]
      rw [hL, hR, ih (n / 10) (Nat.div_lt_self (by omega) (by omega)) (Nat.digitChar (n % 10) :: ds),
        ih (n / 10) (Nat.div_lt_self (by omega) (by omega)) [Nat.digitChar (n % 10)],
        List.append_assoc]
      rfl

/-- The reference printer never returns the empty list. -/
theorem recDigits_ne_nil (n : Nat) : recDigits n [] ≠ [] := by
  rw [recDigits]
  by_cases h0 : n / 10 = 0
  · simp [h0]
  · simp only [dif_neg h0]
    rw [recDigits_append]
    simp

/-- The ten decimal digit characters are digits and evaluate back to
their value. -/
theorem digitChar_facts : ∀ n, n < 10 →
    (Nat.digitChar n).isDigit = true ∧ charVal (Nat.digitChar n) = n := by decide

/-- The decimal value of a digit string, most significant digit first:
the fold performed by Python int(). -/
def digitsVal (l : List Char) : Nat :=
  l.foldl (fun a c => a * 10 + charVal c) 0

/-- Appending one digit multiplies the value by ten and adds the
digit. -/
theorem digitsVal_append_one (l : List Char) (c : Char) :
    digitsVal (l ++ [c]) = digitsVal l * 10 + charVal c := by
  unfold digitsVal
  rw [List.foldl_append]
  rfl

/-- The reference printer is correct: its output evaluates back to the
input. -/
theorem digitsVal_recDigits (n : Nat) : digitsVal (recDigits n []) = n := by
  induction n using Nat.strong_induction_on with
  | _ n ih =>
    rw [recDigits]
    by_cases h0 : n / 10 = 0
    · simp only [dif_pos h0]
      have hn : n % 10 = n := Nat.mod_eq_of_lt (by omega)
      have hd := (digitChar_facts (n % 10) (by omega)).2
      rw [hn] at hd
      simp [digitsVal, hd, hn]
    · simp only [dif_neg h0]
      rw [recDigits_append, digitsVal_append_one,
        ih (n / 10) (Nat.div_lt_self (by omega) (by omega))]
      have hd := (digitChar_facts (n % 10) (by omega)).2
      omega

/-- Every character produced by the reference printer is a decimal
digit. -/
theorem recDigits_all_digits (n : Nat) :
    ∀ c ∈ recDigits n [], c.isDigit = true := by
  induction n using Nat.strong_induction_on with
  | _ n ih =>
    intro c hc
    rw [recDigits] at hc
    by_cases h0 : n / 10 = 0
    · rw [dif_pos h0] at hc
      have hce : c = Nat.digitChar (n % 10) := by simpa using hc
      subst hce
      exact (digitChar_facts (n % 10) (by omega)).1
    · rw [dif_neg h0, recDigits_append] at hc
      rcases List.mem_append.mp hc with hc | hc
      · exact ih (n / 10) (Nat.div_lt_self (by omega) (by omega)) c hc
      · have hce : c = Nat.digitChar (n % 10) := by simpa using hc
        subst hce
        exact (digitChar_facts (n % 10) (by omega)).1

/-- The decimal value of the Nat.repr string recovers the number. -/
theorem digitsVal_repr (n : Nat) : digitsVal (Nat.repr n).data = n := by
  rw [repr_data]
  exact digitsVal_recDigits n

/-- Two equal strings that are the same prefix followed by decimal
representations come from the same number. -/
theorem append_repr_inj (p : String) {m n : Nat}
    (h : p ++ Nat.repr m = p ++ Nat.repr n) : m = n := by
  have hd : (p ++ Nat.repr m).data = (p ++ Nat.repr n).data := by rw [h]
  rw [String.data_append, String.data_append] at hd
  have hd2 := List.append_cancel_left hd
  have := congrArg digitsVal hd2
  rwa [digitsVal_repr, digitsVal_repr] at this

/-- Python string slicing s[1:] at the code-point level (a Python string
is a sequence of code points), used for cid[1:] and aid[1:] at
src/main.py lines 62 and 64. -/
def pySlice1 (s : String) : String := String.mk (s.data.drop 1)

/-- Model of Python int() applied to a string: succeeds on a nonempty
all-digit string with its decimal value, raises ValueError otherwise.
Signs and surrounding whitespace never occur in this program and are not
modelled. -/
def pyInt (s : String) : Option Nat :=
  if !s.data.isEmpty && s.data.all Char.isDigit then some (digitsVal s.data)
  else none

/-- Python int() inverts the decimal representation. -/
theorem pyInt_repr (n : Nat) : pyInt (Nat.repr n) = some n := by
  have h1 : (recDigits n []).isEmpty = false := by
    cases hh : recDigits n [] with
    | nil => exact absurd hh (recDigits_ne_nil n)
    | cons a l => rfl
  have h2 : (recDigits n []).all Char.isDigit = true := by
    rw [List.all_eq_true]
    intro c hc
    exact recDigits_all_digits n c hc
  unfold pyInt
  rw [repr_data n, h1, h2]
  simp [digitsVal_recDigits]

/-- Slicing off a single leading character recovers the appended
string. -/
theorem pySlice1_append (c : Char) (s : String) :
    pySlice1 (String.mk [c] ++ s) = s := by
  unfold pySlice1
  rw [String.data_append]
  rfl

/-- Two-digit zero-padded decimal print: one strftime field of %H, %M or
%S. -/
def fmt2 (n : Nat) : List Char :=
  [Nat.digitChar (n / 10), Nat.digitChar (n % 10)]

/-- strftime with format HH colon MM colon SS (src/main.py lines 75-76):
zero-padded two-digit fields separated by colons. -/
def strftime_HMS (t : Time) : String :=
  String.mk (fmt2 t.hour ++ (':' :: (fmt2 t.minute ++ (':' :: fmt2 t.second))))

/-- One field of strptime: greedily one or two decimal digits. -/
def parse2 : List Char → Option (Nat × List Char)
  | [] => none
  | c1 :: rest =>
    if c1.isDigit then
      match rest with
      | c2 :: rest2 =>
        if c2.isDigit then some (charVal c1 * 10 + charVal c2, rest2)
        else some (charVal c1, rest)
      | [] => some (charVal c1, [])
    else none

/-- datetime.strptime with format %H colon %M colon %S (src/main.py lines
57-58): three digit fields separated by literal colons, consuming the
whole string, with the range checks of the time constructor; a failed
match or range raises ValueError, modelled as none. -/
def strptime_HMS (s : String) : Option Time :=
  match parse2 s.data with
  | none => none
  | some (h, r1) =>
    match r1 with
    | ':' :: r2 =>
      match parse2 r2 with
      | none => none
      | some (m, r3) =>
        match r3 with
        | ':' :: r4 =>
          match parse2 r4 with
          | none => none
          | some (sec, r5) =>
            if r5 = [] ∧ h < 24 ∧ m < 60 ∧ sec < 60 then some ⟨h, m, sec⟩
            else none
        | _ => none
    | _ => none

/-- Parsing a two-digit field after a zero-padded print recovers the
value and the remaining input. -/
theorem parse2_fmt2 (n : Nat) (h : n < 60) (rest : List Char) :
    parse2 (fmt2 n ++ rest) = some (n, rest) := by
  have d1 := digitChar_facts (n / 10) (by omega)
  have d2 := digitChar_facts (n % 10) (by omega)
  have hn : charVal (Nat.digitChar (n / 10)) * 10 +
      charVal (Nat.digitChar (n % 10)) = n := by
    rw [d1.2, d2.2]
    omega
  show parse2 (Nat.digitChar (n / 10) :: Nat.digitChar (n % 10) :: rest) =
    some (n, rest)
  simp only [parse2]
  rw [if_pos d1.1, if_pos d2.1, hn]

/-- The HH colon MM colon SS round-trip: strptime inverts strftime on
valid times. -/
theorem strptime_strftime (t : Time) (h : t.valid) :
    strptime_HMS (strftime_HMS t) = some t := by
  obtain ⟨h1, h2, h3⟩ := h
  have e1 := parse2_fmt2 t.hour (by omega)
    (':' :: (fmt2 t.minute ++ (':' :: fmt2 t.second)))
  have e3 := parse2_fmt2 t.second (by omega) []
  rw [List.append_nil] at e3
  have e2 := parse2_fmt2 t.minute (by omega) (':' :: fmt2 t.second)
  show (match parse2 (fmt2 t.hour ++ (':' :: (fmt2 t.minute ++ (':' :: fmt2 t.second)))) with
    | none => none
    | some (h, r1) =>
      match r1 with
      | ':' :: r2 =>
        match parse2 r2 with
        | none => none
        | some (m, r3) =>
          match r3 with
          | ':' :: r4 =>
            match parse2 r4 with
            | none => none
            | some (sec, r5) =>
              if r5 = [] ∧ h < 24 ∧ m < 60 ∧ sec < 60 then some ⟨h, m, sec⟩
              else none
          | _ => none
      | _ => none) = some t
  rw [e1]
  simp only []
  rw [e2]
  simp only []
  rw [e3]
  simp [h1, h2, h3]

/-- Embedding of add_client (src/main.py lines 193-208): the three
inputs are stripped; an empty stripped name shows a warning and leaves
the state unchanged; otherwise the new client is stored under the id c
followed by the current counter value and the counter is incremented. -/
def add_client (s : StoreState) (name phone email : String) :
    StoreState × Option Failure :=
  let name := name.trim
  let phone := phone.trim
  let email := email.trim
  if name = "" then (s, some .warningNameRequired)
  else
    (⟨dictInsert s.clients ("c" ++ Nat.repr s.client_counter)
        ⟨name, phone, email⟩,
      s.appointments, s.client_counter + 1, s.appointment_counter⟩, none)

/-- One iteration of the display loop of load_appointments (src/main.py
lines 374-393): skip rows of other clients; with an active filter skip
rows dated strictly before the from date or strictly after the to date;
append every other row and accumulate count, duration and cost. -/
def apptRow (current_client_id : String) (date_filter_active : Bool)
    (filter_from filter_to : Date) (acc : List Appt × Nat × Int × ℚ)
    (kv : String × Appt) : List Appt × Nat × Int × ℚ :=
  let appt := kv.2
  if appt.client_id == current_client_id then
    if date_filter_active && Date.ltb appt.date filter_from then acc
    else if date_filter_active && Date.ltb filter_to appt.date then acc
    else (acc.1 ++ [appt], acc.2.1 + 1, acc.2.2.1 + appt.duration,
      acc.2.2.2 + appt.cost)
  else acc

/-- Embedding of the query core of load_appointments (src/main.py lines
358-398) for a selected client: the displayed rows in insertion order
together with the three totals. -/
def load_appointments (appointments : Dict Appt) (current_client_id : String)
    (date_filter_active : Bool) (filter_from filter_to : Date) :
    List Appt × Nat × Int × ℚ :=
  appointments.foldl
    (apptRow current_client_id date_filter_active filter_from filter_to)
    ([], 0, 0, 0)

/-- Embedding of add_appointment (src/main.py lines 419-443) together
with the clients dictionary access performed by the load_appointments
refresh it triggers (line 366).  With an unset or empty current client
id the method warns and returns without touching the state; otherwise
duration and cost are computed, the appointment is stored under the id a
followed by the current counter value and the counter is incremented;
the refresh then looks the current client id up in the clients dict and
raises KeyError when it is absent, in which case save_data is never
reached. -/
def add_appointment (s : StoreState) (current_client_id : Option String)
    (date : Date) (start_time end_time : Time) (rate : ℚ)
    (increment : Int) : StoreState × Option Failure :=
  match current_client_id with
  | none => (s, some .warningNoClientSelected)
  | some cid =>
    if cid = "" then (s, some .warningNoClientSelected)
    else
      let duration := calculate_duration_minutes start_time end_time
      match calculate_cost duration rate increment with
      | .error e => (s, some e)
      | .ok cost =>
        let aid := "a" ++ Nat.repr s.appointment_counter
        let s2 : StoreState :=
          ⟨s.clients,
            dictInsert s.appointments aid
              ⟨cid, date, start_time, end_time, duration, cost⟩,
            s.client_counter, s.appointment_counter + 1⟩
        if s2.clients.any (fun p => p.1 == cid) then (s2, none)
        else (s2, some .keyError)

/-- Embedding of save_data (src/main.py lines 66-79), threading the
in-memory state through the translation of each statement.  The clients
dict is serialised as it stands; the appointment loop copies each record
(v.copy()) and replaces the start and end fields by their strftime
strings on the copy only, building the to_save dict by dict assignment;
the store itself is only read.  The result is the post-call store
together with the two written documents. -/
def save_data (s : StoreState) :
    StoreState × Dict Client × Dict SavedAppt :=
  let clients_doc := s.clients
  let to_save : Dict SavedAppt :=
    s.appointments.foldl
      (fun to_save kv =>
        let v := kv.2
        let appt_copy := v
        let start_str := strftime_HMS appt_copy.start
        let end_str := strftime_HMS appt_copy.«end»
        dictInsert to_save kv.1
          ⟨appt_copy.client_id, appt_copy.date, start_str, end_str,
            appt_copy.duration, appt_copy.cost⟩)
      []
  (s, clients_doc, to_save)

/-- The observable states of a persisted JSON file: missing, present but
rejected by json.load, or present with a parsed document. -/
inductive FileContent (α : Type) where
  | absent
  | corrupt
  | parsed (doc : α)

/-- Python dict.update: insert the pairs of the document in order. -/
def dictUpdate {α : Type} (d : Dict α) (doc : Dict α) : Dict α :=
  doc.foldl (fun acc kv => dictInsert acc kv.1 kv.2) d

/-- The appointment-loading loop of load_data (src/main.py lines 55-59):
each saved record has its start and end strings parsed back to time
objects (ValueError aborts the load) and is stored in the appointments
dict. -/
def loadAppts (acc : Dict Appt) :
    List (String × SavedAppt) → Except Failure (Dict Appt)
  | [] => .ok acc
  | (k, v) :: rest =>
    match strptime_HMS v.start with
    | none => .error .valueError
    | some st =>
      match strptime_HMS v.«end» with
      | none => .error .valueError
      | some en =>
        loadAppts
          (dictInsert acc k ⟨v.client_id, v.date, st, en, v.duration, v.cost⟩)
          rest

/-- The suffix parse inside the counter update of load_data (src/main.py
lines 61-64): int(key[1:]) for every key in order; int raises ValueError
on a key without a purely numeric suffix. -/
def parseSuffixes : List String → Except Failure (List Nat)
  | [] => .ok []
  | k :: ks =>
    match pyInt (pySlice1 k) with
    | none => .error .valueError
    | some n =>
      match parseSuffixes ks with
      | .ok ns => .ok (n :: ns)
      | .error e => .error e

/-- The counter value computed by load_data from a nonempty collection:
the maximum id suffix plus one (all suffixes are naturals, so the
maximum of the nonempty list equals the fold of Nat.max from 0). -/
def counterFromKeys (keys : List String) : Except Failure Nat :=
  match parseSuffixes keys with
  | .error e => .error e
  | .ok ns => .ok (ns.foldl Nat.max 0 + 1)

/-- Embedding of load_data (src/main.py lines 45-64) starting from the
fresh module state (empty collections, counters 1).  A missing file
leaves its collection empty; an unparseable one raises JSONDecodeError;
appointment times are parsed back to time objects; afterwards each
counter is set to one more than the maximal numeric id suffix of its
collection when that collection is nonempty.  Any raised error
propagates out of load_data unhandled (the function contains no
exception handler), modelled by the error branch. -/
def load_data (clients_file : FileContent (Dict Client))
    (appts_file : FileContent (Dict SavedAppt)) :
    Except Failure StoreState :=
  let clientsRes : Except Failure (Dict Client) :=
    match clients_file with
    | .absent => .ok []
    | .corrupt => .error .jsonDecodeError
    | .parsed doc => .ok (dictUpdate [] doc)
  match clientsRes with
  | .error e => .error e
  | .ok clients =>
    let apptsRes : Except Failure (Dict Appt) :=
      match appts_file with
      | .absent => .ok []
      | .corrupt => .error .jsonDecodeError
      | .parsed doc => loadAppts [] doc
    match apptsRes with
    | .error e => .error e
    | .ok appointments =>
      let ccRes : Except Failure Nat :=
        if clients.isEmpty then .ok 1
        else counterFromKeys (clients.map Prod.fst)
      match ccRes with
      | .error e => .error e
      | .ok client_counter =>
        let acRes : Except Failure Nat :=
          if appointments.isEmpty then .ok 1
          else counterFromKeys (appointments.map Prod.fst)
        match acRes with
        | .error e => .error e
        | .ok appointment_counter =>
          .ok ⟨clients, appointments, client_counter, appointment_counter⟩

/-- C10: save_data never mutates the in-memory state: the store after
the call equals the store before it, in every component; the time to
string conversion happens on the copied records inside the written
document only. -/
theorem save_data_frame (s : StoreState) :
    (save_data s).1 = s ∧
    (save_data s).1.clients = s.clients ∧
    (save_data s).1.appointments = s.appointments ∧
    (save_data s).1.client_counter = s.client_counter ∧
    (save_data s).1.appointment_counter = s.appointment_counter :=
  ⟨rfl, rfl, rfl, rfl, rfl⟩

/-- C8 counterexample: with a present but unparseable appointments file
(clients file missing) load_data aborts with the propagated
JSONDecodeError instead of succeeding with empty collections; the
symmetric clients-file case aborts as well. -/
theorem load_data_corrupt_counterexample :
    load_data FileContent.absent FileContent.corrupt =
      Except.error Failure.jsonDecodeError ∧
    load_data FileContent.corrupt FileContent.absent =
      Except.error Failure.jsonDecodeError :=
  ⟨rfl, rfl⟩

/-- C8 amended: when a persisted file exists but cannot be parsed, the
JSONDecodeError raised by json.load propagates out of load_data unhandled
and aborts the whole load; there is no fail-open fallback to an empty
collection. -/
theorem load_data_corrupt_aborts (cf : FileContent (Dict Client))
    (af : FileContent (Dict SavedAppt)) :
    (cf = FileContent.corrupt →
      load_data cf af = Except.error Failure.jsonDecodeError) ∧
    (af = FileContent.corrupt → cf ≠ FileContent.corrupt →
      load_data cf af = Except.error Failure.jsonDecodeError) := by
  constructor
  · intro h
    subst h
    rfl
  · intro h hc
    subst h
    cases cf with
    | absent => rfl
    | corrupt => exact absurd rfl hc
    | parsed doc => rfl

/-- Witness for the amended C8: both corrupt-file cases at concrete
inputs. -/
theorem load_data_corrupt_aborts_witness :
    load_data FileContent.corrupt (FileContent.parsed []) =
      Except.error Failure.jsonDecodeError ∧
    load_data (FileContent.parsed []) FileContent.corrupt =
      Except.error Failure.jsonDecodeError :=
  ⟨(load_data_corrupt_aborts FileContent.corrupt (FileContent.parsed [])).1 rfl,
   (load_data_corrupt_aborts (FileContent.parsed []) FileContent.corrupt).2 rfl
     (fun h => FileContent.noConfusion h)⟩

/-- C7 counterexample: calling add_appointment on the empty store with
the unknown (nonempty) client id c1 raises KeyError, but only after
mutating the store: the appointment record is inserted and the
appointment counter is incremented from 1 to 2. -/
theorem add_appointment_unknown_client_counterexample :
    (add_appointment initialState (some "c1") ⟨2024, 1, 1⟩ ⟨9, 0, 0⟩
      ⟨10, 0, 0⟩ 30 6).2 = some Failure.keyError ∧
    (add_appointment initialState (some "c1") ⟨2024, 1, 1⟩ ⟨9, 0, 0⟩
      ⟨10, 0, 0⟩ 30 6).1 =
      ⟨[], [("a1", ⟨"c1", ⟨2024, 1, 1⟩, ⟨9, 0, 0⟩, ⟨10, 0, 0⟩, 60, 30⟩)],
        1, 2⟩ := by
  have hdur : calculate_duration_minutes ⟨9, 0, 0⟩ ⟨10, 0, 0⟩ = 60 := by decide
  have hrm : rounded_minutes 60 6 = 60 := by decide
  have hcost : calculate_cost 60 30 6 = Except.ok 30 := by
    have h2 := calculate_cost_ok 60 30 6 (by decide)
    rw [h2, hrm]
    norm_num
  constructor <;> simp [add_appointment, hdur, hcost, initialState, dictInsert] <;>
    decide

/-- C7 amended: with an unset or empty current client id add_appointment
fails with the warning and the store is untouched; with a nonempty client
id absent from the client collection (and a nonzero increment, so the
cost computation returns) it raises KeyError during the triggered list
refresh, but only after the appointment record has been inserted and the
appointment counter incremented; the clients collection and counter are
unchanged. -/
theorem add_appointment_error_behavior (s : StoreState)
    (cid : Option String) (d : Date) (t1 t2 : Time) (rate : ℚ)
    (inc : Int) :
    (cid = none ∨ cid = some "" →
      add_appointment s cid d t1 t2 rate inc =
        (s, some Failure.warningNoClientSelected)) ∧
    (∀ c, cid = some c → c ≠ "" → inc ≠ 0 →
      s.clients.any (fun p => p.1 == c) = false →
      (add_appointment s cid d t1 t2 rate inc).2 = some Failure.keyError ∧
      (add_appointment s cid d t1 t2 rate inc).1.appointments =
        dictInsert s.appointments ("a" ++ Nat.repr s.appointment_counter)
          ⟨c, d, t1, t2, calculate_duration_minutes t1 t2,
            rate * ((rounded_minutes (calculate_duration_minutes t1 t2) inc : ℚ) / 60)⟩ ∧
      (add_appointment s cid d t1 t2 rate inc).1.appointment_counter =
        s.appointment_counter + 1 ∧
      (add_appointment s cid d t1 t2 rate inc).1.clients = s.clients) := by
  constructor
  · rintro (h | h) <;> subst h <;> simp [add_appointment]
  · intro c hc hne hinc habs
    subst hc
    have hcost : calculate_cost (calculate_duration_minutes t1 t2) rate inc =
        Except.ok (rate * ((rounded_minutes (calculate_duration_minutes t1 t2) inc : ℚ) / 60)) :=
      calculate_cost_ok _ rate inc hinc
    simp [add_appointment, hne, hcost, habs]

/-- Witness for the amended C7: the empty client id leaves the initial
store untouched, and the unknown id c9 on the initial store raises
KeyError after mutating. -/
theorem add_appointment_error_behavior_witness :
    add_appointment initialState (some "") ⟨2024, 1, 1⟩ ⟨9, 0, 0⟩
      ⟨10, 0, 0⟩ 30 6 = (initialState, some Failure.warningNoClientSelected) ∧
    (add_appointment initialState (some "c9") ⟨2024, 1, 1⟩ ⟨9, 0, 0⟩
      ⟨10, 0, 0⟩ 30 6).2 = some Failure.keyError :=
  ⟨(add_appointment_error_behavior initialState (some "") ⟨2024, 1, 1⟩
      ⟨9, 0, 0⟩ ⟨10, 0, 0⟩ 30 6).1 (Or.inr rfl),
   ((add_appointment_error_behavior initialState (some "c9") ⟨2024, 1, 1⟩
      ⟨9, 0, 0⟩ ⟨10, 0, 0⟩ 30 6).2 "c9" rfl (by decide) (by decide)
      (by decide)).1⟩

/-- A strict comparison that fails the nonstrict converse is true. -/
theorem Date.ltb_true_of_leb_false {a b : Date}
    (h : Date.leb b a = false) : Date.ltb a b = true := by
  cases hh : Date.ltb a b with
  | true => rfl
  | false =>
    rw [(Date.not_ltb a b).mp hh] at h
    cases h

/-- The subset of the appointment records that belong to the given
client and are dated inside the inclusive range, in insertion order. -/
def keptRows (appointments : Dict Appt) (cid : String) (ffrom fto : Date) :
    List Appt :=
  (appointments.map Prod.snd).filter
    (fun a => a.client_id == cid &&
      (Date.leb ffrom a.date && Date.leb a.date fto))

/-- The display loop with an active filter accumulates exactly the kept
rows, their count, their duration sum and their cost sum on top of the
starting accumulator. -/
theorem apptRow_foldl (cid : String) (ffrom fto : Date) (appts : Dict Appt)
    (acc : List Appt × Nat × Int × ℚ) :
    appts.foldl (apptRow cid true ffrom fto) acc =
      (acc.1 ++ keptRows appts cid ffrom fto,
       acc.2.1 + (keptRows appts cid ffrom fto).length,
       acc.2.2.1 + ((keptRows appts cid ffrom fto).map (fun a => a.duration)).sum,
       acc.2.2.2 + ((keptRows appts cid ffrom fto).map (fun a => a.cost)).sum) := by
  induction appts generalizing acc with
  | nil => simp [keptRows]
  | cons kv rest ih =>
    obtain ⟨k, a⟩ := kv
    by_cases hc : (a.client_id == cid) = true
    · by_cases hx : Date.leb ffrom a.date = true
      · by_cases hy : Date.leb a.date fto = true
        · have hl1 : Date.ltb a.date ffrom = false := (Date.not_ltb _ _).mpr hx
          have hl2 : Date.ltb fto a.date = false := (Date.not_ltb _ _).mpr hy
          have hstep : apptRow cid true ffrom fto acc (k, a) =
              (acc.1 ++ [a], acc.2.1 + 1, acc.2.2.1 + a.duration,
                acc.2.2.2 + a.cost) := by
            simp [apptRow, hc, hl1, hl2]
          have hk : keptRows ((k, a) :: rest) cid ffrom fto =
              a :: keptRows rest cid ffrom fto := by
            simp [keptRows, List.filter_cons, hc, hx, hy]
          rw [List.foldl_cons, hstep, ih, hk]
          refine Prod.ext (by simp) (Prod.ext (by simp; omega)
            (Prod.ext (by simp; ring) (by simp; ring)))
        · have hl2 : Date.ltb fto a.date = true :=
            Date.ltb_true_of_leb_false (by simpa using hy)
          have hstep : apptRow cid true ffrom fto acc (k, a) = acc := by
            simp [apptRow, hc, hl2]
          have hk : keptRows ((k, a) :: rest) cid ffrom fto =
              keptRows rest cid ffrom fto := by
            simp [keptRows, List.filter_cons, hc, hx, by simpa using hy]
          rw [List.foldl_cons, hstep, ih, hk]
      · have hl1 : Date.ltb a.date ffrom = true :=
          Date.ltb_true_of_leb_false (by simpa using hx)
        have hstep : apptRow cid true ffrom fto acc (k, a) = acc := by
          simp [apptRow, hc, hl1]
        have hk : keptRows ((k, a) :: rest) cid ffrom fto =
            keptRows rest cid ffrom fto := by
          simp [keptRows, List.filter_cons, hc, by simpa using hx]
        rw [List.foldl_cons, hstep, ih, hk]
    · have hstep : apptRow cid true ffrom fto acc (k, a) = acc := by
        simp [apptRow, by simpa using hc]
      have hk : keptRows ((k, a) :: rest) cid ffrom fto =
          keptRows rest cid ffrom fto := by
        simp [keptRows, List.filter_cons, by simpa using hc]
      rw [List.foldl_cons, hstep, ih, hk]

/-- C3: with an active date filter the query returns exactly the rows of
the selected client whose date lies within the inclusive range, in
insertion order, and the returned aggregates are the count, duration sum
and cost sum over exactly that subset. -/
theorem load_appointments_spec (appts : Dict Appt) (cid : String)
    (ffrom fto : Date) :
    (load_appointments appts cid true ffrom fto).1 =
      keptRows appts cid ffrom fto ∧
    (load_appointments appts cid true ffrom fto).2.1 =
      (keptRows appts cid ffrom fto).length ∧
    (load_appointments appts cid true ffrom fto).2.2.1 =
      ((keptRows appts cid ffrom fto).map (fun a => a.duration)).sum ∧
    (load_appointments appts cid true ffrom fto).2.2.2 =
      ((keptRows appts cid ffrom fto).map (fun a => a.cost)).sum := by
  unfold load_appointments
  rw [apptRow_foldl cid ffrom fto appts ([], 0, 0, 0)]
  simp

/-- Inserting a fresh key into a dict appends it. -/
theorem dictInsert_fresh {α : Type} (d : Dict α) (k : String) (v : α)
    (h : ∀ p ∈ d, p.1 ≠ k) : dictInsert d k v = d ++ [(k, v)] := by
  unfold dictInsert
  rw [if_neg]
  intro hany
  obtain ⟨q, hq, hbeq⟩ := List.any_eq_true.mp hany
  exact h q hq (by simpa using hbeq)

/-- Folding dict assignments of value-converted pairs over pairwise
distinct keys, all fresh for the accumulator, appends the converted
pairs in order. -/
theorem foldl_dictInsert_map {α β : Type} (f : α → β)
    (l : List (String × α)) (acc : Dict β)
    (hn : (l.map Prod.fst).Nodup)
    (hd : ∀ p ∈ l, ∀ q ∈ acc, q.1 ≠ p.1) :
    l.foldl (fun ts kv => dictInsert ts kv.1 (f kv.2)) acc =
      acc ++ l.map (fun kv => (kv.1, f kv.2)) := by
  induction l generalizing acc with
  | nil => simp
  | cons p rest ih =>
    obtain ⟨k, a⟩ := p
    simp only [List.map_cons, List.nodup_cons] at hn
    have hfresh : dictInsert acc k (f a) = acc ++ [(k, f a)] :=
      dictInsert_fresh acc k (f a)
        (fun q hq => hd (k, a) (List.mem_cons_self _ _) q hq)
    have hd2 : ∀ p ∈ rest, ∀ q ∈ acc ++ [(k, f a)], q.1 ≠ p.1 := by
      intro p hp q hq
      rcases List.mem_append.mp hq with hq | hq
      · exact hd p (List.mem_cons_of_mem _ hp) q hq
      · have hqk : q = (k, f a) := by simpa using hq
        subst hqk
        intro hkp
        have hkp2 : k = p.1 := hkp
        exact hn.1 (by rw [hkp2]; exact List.mem_map_of_mem Prod.fst hp)
    rw [List.foldl_cons]
    show List.foldl (fun ts kv => dictInsert ts kv.1 (f kv.2))
        (dictInsert acc k (f a)) rest = _
    rw [hfresh, ih (acc ++ [(k, f a)]) hn.2 hd2]
    simp

/-- Python dict.update on an empty dict with pairwise distinct keys
reproduces the document. -/
theorem dictUpdate_nil {α : Type} (doc : Dict α)
    (hn : (doc.map Prod.fst).Nodup) : dictUpdate [] doc = doc := by
  show doc.foldl (fun ts kv => dictInsert ts kv.1 (id kv.2)) [] = doc
  rw [foldl_dictInsert_map id doc [] hn (by simp)]
  simp

/-- The record written to appointments.json for one in-memory
appointment. -/
def savedOfAppt (a : Appt) : SavedAppt :=
  ⟨a.client_id, a.date, strftime_HMS a.start, strftime_HMS a.«end»,
    a.duration, a.cost⟩

/-- The to_save document of save_data is the converted appointments
list whenever the appointment keys are pairwise distinct. -/
theorem save_data_to_save (s : StoreState)
    (hn : (s.appointments.map Prod.fst).Nodup) :
    (save_data s).2.2 =
      s.appointments.map (fun kv => (kv.1, savedOfAppt kv.2)) := by
  show s.appointments.foldl
      (fun ts kv => dictInsert ts kv.1 (savedOfAppt kv.2)) [] = _
  rw [foldl_dictInsert_map savedOfAppt s.appointments [] hn (by simp)]
  simp

/-- Loading the converted appointment records parses every time string
back and reproduces the original records after the accumulator. -/
theorem loadAppts_roundtrip (l : Dict Appt) (acc : Dict Appt)
    (hval : ∀ p ∈ l, p.2.start.valid ∧ p.2.«end».valid)
    (hn : (l.map Prod.fst).Nodup)
    (hd : ∀ p ∈ l, ∀ q ∈ acc, q.1 ≠ p.1) :
    loadAppts acc (l.map (fun kv => (kv.1, savedOfAppt kv.2))) =
      Except.ok (acc ++ l) := by
  induction l generalizing acc with
  | nil => simp [loadAppts]
  | cons p rest ih =>
    obtain ⟨k, a⟩ := p
    simp only [List.map_cons, List.nodup_cons] at hn
    have hv := hval (k, a) (List.mem_cons_self _ _)
    have hst : strptime_HMS (savedOfAppt a).start = some a.start :=
      strptime_strftime a.start hv.1
    have hen : strptime_HMS (savedOfAppt a).«end» = some a.«end» :=
      strptime_strftime a.«end» hv.2
    have hfresh : dictInsert acc k
        (⟨(savedOfAppt a).client_id, (savedOfAppt a).date, a.start, a.«end»,
          (savedOfAppt a).duration, (savedOfAppt a).cost⟩ : Appt) =
        acc ++ [(k, a)] := by
      have heta : (⟨(savedOfAppt a).client_id, (savedOfAppt a).date, a.start,
          a.«end», (savedOfAppt a).duration, (savedOfAppt a).cost⟩ : Appt) = a := rfl
      rw [heta]
      exact dictInsert_fresh acc k a
        (fun q hq => hd (k, a) (List.mem_cons_self _ _) q hq)
    have hd2 : ∀ p ∈ rest, ∀ q ∈ acc ++ [(k, a)], q.1 ≠ p.1 := by
      intro p hp q hq
      rcases List.mem_append.mp hq with hq | hq
      · exact hd p (List.mem_cons_of_mem _ hp) q hq
      · have hqk : q = (k, a) := by simpa using hq
        subst hqk
        intro hkp
        have hkp2 : k = p.1 := hkp
        exact hn.1 (by rw [hkp2]; exact List.mem_map_of_mem Prod.fst hp)
    show loadAppts acc ((k, savedOfAppt a) ::
        rest.map (fun kv => (kv.1, savedOfAppt kv.2))) = _
    rw [loadAppts, hst]
    simp only []
    rw [hen]
    simp only []
    rw [hfresh,
      ih (acc ++ [(k, a)]) (fun p hp => hval p (List.mem_cons_of_mem _ hp))
        hn.2 hd2]
    simp

/-- Slicing and int() recover the numeric suffix of a one-character
prefixed id. -/
theorem pyInt_pySlice1_id (c : Char) (n : Nat) :
    pyInt (pySlice1 (String.mk [c] ++ Nat.repr n)) = some n := by
  rw [pySlice1_append]
  exact pyInt_repr n

/-- parseSuffixes succeeds when every key has a parseable suffix. -/
theorem parseSuffixes_exists (keys : List String)
    (h : ∀ k ∈ keys, ∃ n : Nat, pyInt (pySlice1 k) = some n) :
    ∃ ns, parseSuffixes keys = Except.ok ns := by
  induction keys with
  | nil => exact ⟨[], rfl⟩
  | cons k ks ih =>
    obtain ⟨n, hn⟩ := h k (List.mem_cons_self _ _)
    obtain ⟨ns, hns⟩ := ih (fun k hk => h k (List.mem_cons_of_mem _ hk))
    refine ⟨n :: ns, ?_⟩
    rw [parseSuffixes, hn]
    simp only []
    rw [hns]

/-- load_data on two parsed documents, given the loaded pieces. -/
theorem load_data_parsed (cdoc : Dict Client) (adoc : Dict SavedAppt)
    (appts : Dict Appt) (ha : loadAppts [] adoc = Except.ok appts)
    (cc ac : Nat)
    (hcc : (if (dictUpdate [] cdoc).isEmpty then Except.ok 1
      else counterFromKeys ((dictUpdate [] cdoc).map Prod.fst)) =
      Except.ok (ε := Failure) cc)
    (hac : (if appts.isEmpty then Except.ok 1
      else counterFromKeys (appts.map Prod.fst)) =
      Except.ok (ε := Failure) ac) :
    load_data (FileContent.parsed cdoc) (FileContent.parsed adoc) =
      Except.ok ⟨dictUpdate [] cdoc, appts, cc, ac⟩ := by
  unfold load_data
  simp only []
  rw [ha]
  simp only []
  rw [hcc]
  simp only []
  rw [hac]

/-- C4: for a store state whose collections have pairwise distinct keys
with decimal suffixes and whose appointment times are valid (invariants
of every reachable state), save_data followed by load_data into the
fresh module state reproduces both collections field for field. -/
theorem save_load_roundtrip (s : StoreState)
    (hcn : (s.clients.map Prod.fst).Nodup)
    (han : (s.appointments.map Prod.fst).Nodup)
    (hck : ∀ p ∈ s.clients, ∃ n : Nat, p.1 = "c" ++ Nat.repr n)
    (hak : ∀ p ∈ s.appointments, ∃ n : Nat, p.1 = "a" ++ Nat.repr n)
    (hval : ∀ p ∈ s.appointments, p.2.start.valid ∧ p.2.«end».valid) :
    ∃ s2 : StoreState,
      load_data (FileContent.parsed (save_data s).2.1)
        (FileContent.parsed (save_data s).2.2) = Except.ok s2 ∧
      s2.clients = s.clients ∧ s2.appointments = s.appointments := by
  have hclients : dictUpdate [] s.clients = s.clients := dictUpdate_nil _ hcn
  have happts : loadAppts []
      (s.appointments.map (fun kv => (kv.1, savedOfAppt kv.2))) =
      Except.ok s.appointments := by
    have h := loadAppts_roundtrip s.appointments [] hval han (by simp)
    simpa using h
  have hcparse : ∀ k ∈ s.clients.map Prod.fst,
      ∃ n : Nat, pyInt (pySlice1 k) = some n := by
    intro k hk
    obtain ⟨p, hp, hpk⟩ := List.mem_map.mp hk
    obtain ⟨n, hn⟩ := hck p hp
    refine ⟨n, ?_⟩
    rw [← hpk, hn, show ("c" : String) = String.mk ['c'] from rfl,
      pyInt_pySlice1_id]
  have haparse : ∀ k ∈ s.appointments.map Prod.fst,
      ∃ n : Nat, pyInt (pySlice1 k) = some n := by
    intro k hk
    obtain ⟨p, hp, hpk⟩ := List.mem_map.mp hk
    obtain ⟨n, hn⟩ := hak p hp
    refine ⟨n, ?_⟩
    rw [← hpk, hn, show ("a" : String) = String.mk ['a'] from rfl,
      pyInt_pySlice1_id]
  have hccex : ∃ cc, (if (dictUpdate [] s.clients).isEmpty then Except.ok 1
      else counterFromKeys ((dictUpdate [] s.clients).map Prod.fst)) =
      Except.ok (ε := Failure) cc := by
    rw [hclients]
    by_cases hh : s.clients.isEmpty
    · exact ⟨1, by rw [if_pos hh]⟩
    · obtain ⟨ns, hns⟩ := parseSuffixes_exists _ hcparse
      refine ⟨ns.foldl Nat.max 0 + 1, ?_⟩
      rw [if_neg hh]
      unfold counterFromKeys
      rw [hns]
  obtain ⟨cc, hcc⟩ := hccex
  have hacex : ∃ ac, (if s.appointments.isEmpty then Except.ok 1
      else counterFromKeys (s.appointments.map Prod.fst)) =
      Except.ok (ε := Failure) ac := by
    by_cases hh : s.appointments.isEmpty
    · exact ⟨1, by rw [if_pos hh]⟩
    · obtain ⟨ns, hns⟩ := parseSuffixes_exists _ haparse
      refine ⟨ns.foldl Nat.max 0 + 1, ?_⟩
      rw [if_neg hh]
      unfold counterFromKeys
      rw [hns]
  obtain ⟨ac, hac⟩ := hacex
  refine ⟨⟨s.clients, s.appointments, cc, ac⟩, ?_, rfl, rfl⟩
  rw [show (save_data s).2.1 = s.clients from rfl, save_data_to_save s han,
    load_data_parsed s.clients
      (s.appointments.map (fun kv => (kv.1, savedOfAppt kv.2)))
      s.appointments happts cc ac hcc hac]
  rw [hclients]

/-- Witness for C4: a one-client, one-appointment store survives the
save and load cycle. -/
theorem save_load_roundtrip_witness :
    ∃ s2 : StoreState,
      load_data
        (FileContent.parsed
          (save_data ⟨[("c1", ⟨"Ann", "555", "ann"⟩)],
            [("a1", ⟨"c1", ⟨2024, 1, 2⟩, ⟨9, 0, 0⟩, ⟨9, 47, 0⟩, 47, 24⟩)],
            2, 2⟩).2.1)
        (FileContent.parsed
          (save_data ⟨[("c1", ⟨"Ann", "555", "ann"⟩)],
            [("a1", ⟨"c1", ⟨2024, 1, 2⟩, ⟨9, 0, 0⟩, ⟨9, 47, 0⟩, 47, 24⟩)],
            2, 2⟩).2.2) = Except.ok s2 ∧
      s2.clients = [("c1", ⟨"Ann", "555", "ann"⟩)] ∧
      s2.appointments =
        [("a1", ⟨"c1", ⟨2024, 1, 2⟩, ⟨9, 0, 0⟩, ⟨9, 47, 0⟩, 47, 24⟩)] :=
  save_load_roundtrip
    ⟨[("c1", ⟨"Ann", "555", "ann"⟩)],
      [("a1", ⟨"c1", ⟨2024, 1, 2⟩, ⟨9, 0, 0⟩, ⟨9, 47, 0⟩, 47, 24⟩)], 2, 2⟩
    (by decide) (by decide)
    (by
      intro p hp
      have hps := List.mem_singleton.mp hp
      subst hps
      exact ⟨1, by decide⟩)
    (by
      intro p hp
      have hps := List.mem_singleton.mp hp
      subst hps
      exact ⟨1, by decide⟩)
    (by
      intro p hp
      have hps := List.mem_singleton.mp hp
      subst hps
      exact ⟨by decide, by decide⟩)

/-- The two mutating operations reachable from the user interface. -/
inductive Op where
  | addClient (name phone email : String)
  | addAppointment (current_client_id : Option String) (date : Date)
      (start_time end_time : Time) (rate : ℚ) (increment : Int)

/-- The store state after one operation (warnings and raised errors leave
whatever state the operation produced). -/
def applyOp (s : StoreState) : Op → StoreState
  | .addClient n p e => (add_client s n p e).1
  | .addAppointment cid d t1 t2 r i => (add_appointment s cid d t1 t2 r i).1

/-- The store state after a sequence of operations. -/
def runOps (s : StoreState) (ops : List Op) : StoreState :=
  ops.foldl applyOp s

/-- Every key of the dict is the prefix followed by a decimal suffix
strictly below the counter. -/
def keysBounded {α : Type} (pre : String) (counter : Nat) (d : Dict α) : Prop :=
  ∀ p ∈ d, ∃ n : Nat, n < counter ∧ p.1 = pre ++ Nat.repr n

/-- The id invariant of the store: keys of both collections are pairwise
distinct and bounded by their counters. -/
def StoreState.inv (s : StoreState) : Prop :=
  (s.clients.map Prod.fst).Nodup ∧
  (s.appointments.map Prod.fst).Nodup ∧
  keysBounded "c" s.client_counter s.clients ∧
  keysBounded "a" s.appointment_counter s.appointments

/-- Under the bound, the id built from the current counter is fresh. -/
theorem keysBounded_fresh {α : Type} {pre : String} {counter : Nat}
    {d : Dict α} (h : keysBounded pre counter d) :
    ∀ p ∈ d, p.1 ≠ pre ++ Nat.repr counter := by
  intro p hp heq
  obtain ⟨n, hn, hpn⟩ := h p hp
  rw [hpn] at heq
  have := append_repr_inj pre heq
  omega

/-- Inserting under the counter id preserves distinctness and the bound
at the incremented counter. -/
theorem inv_insert {α : Type} {pre : String} {counter : Nat} {d : Dict α}
    (hn : (d.map Prod.fst).Nodup) (hb : keysBounded pre counter d) (v : α) :
    ((dictInsert d (pre ++ Nat.repr counter) v).map Prod.fst).Nodup ∧
    keysBounded pre (counter + 1)
      (dictInsert d (pre ++ Nat.repr counter) v) := by
  have hfresh := keysBounded_fresh hb
  rw [dictInsert_fresh d _ v hfresh]
  constructor
  · rw [List.map_append, List.nodup_append]
    refine ⟨hn, by simp, ?_⟩
    intro a ha hb2
    have ha2 : a = pre ++ Nat.repr counter := by simpa using hb2
    obtain ⟨p, hp, hpa⟩ := List.mem_map.mp ha
    exact hfresh p hp (hpa.trans ha2)
  · intro p hp
    rcases List.mem_append.mp hp with hp | hp
    · obtain ⟨n, hlt, he⟩ := hb p hp
      exact ⟨n, by omega, he⟩
    · have hpe : p = (pre ++ Nat.repr counter, v) := by simpa using hp
      subst hpe
      exact ⟨counter, by omega, rfl⟩

/-- Each of the two operations preserves the id invariant. -/
theorem applyOp_inv (s : StoreState) (op : Op) (h : s.inv) :
    (applyOp s op).inv := by
  obtain ⟨hcn, han, hcb, hab⟩ := h
  cases op with
  | addClient n p e =>
    show (add_client s n p e).1.inv
    unfold add_client
    by_cases hname : n.trim = ""
    · simp only [if_pos hname]
      exact ⟨hcn, han, hcb, hab⟩
    · simp only [if_neg hname]
      have hi := inv_insert hcn hcb (⟨n.trim, p.trim, e.trim⟩ : Client)
      exact ⟨hi.1, han, hi.2, hab⟩
  | addAppointment cid d t1 t2 r i =>
    show (add_appointment s cid d t1 t2 r i).1.inv
    unfold add_appointment
    cases cid with
    | none => exact ⟨hcn, han, hcb, hab⟩
    | some c =>
      by_cases hc : c = ""
      · simp only [if_pos hc]
        exact ⟨hcn, han, hcb, hab⟩
      · simp only [if_neg hc]
        cases hcost : calculate_cost (calculate_duration_minutes t1 t2) r i with
        | error e => exact ⟨hcn, han, hcb, hab⟩
        | ok cost =>
          simp only []
          have hi := inv_insert han hab
            (⟨c, d, t1, t2, calculate_duration_minutes t1 t2, cost⟩ : Appt)
          have hsplit : (if s.clients.any (fun p => p.1 == c) = true then
              ((⟨s.clients,
                dictInsert s.appointments ("a" ++ Nat.repr s.appointment_counter)
                  ⟨c, d, t1, t2, calculate_duration_minutes t1 t2, cost⟩,
                s.client_counter, s.appointment_counter + 1⟩ : StoreState), none)
            else
              (⟨s.clients,
                dictInsert s.appointments ("a" ++ Nat.repr s.appointment_counter)
                  ⟨c, d, t1, t2, calculate_duration_minutes t1 t2, cost⟩,
                s.client_counter, s.appointment_counter + 1⟩,
               some Failure.keyError)).1 =
              ⟨s.clients,
                dictInsert s.appointments ("a" ++ Nat.repr s.appointment_counter)
                  ⟨c, d, t1, t2, calculate_duration_minutes t1 t2, cost⟩,
                s.client_counter, s.appointment_counter + 1⟩ := by
            split <;> rfl
          rw [hsplit]
          exact ⟨hcn, hi.1, hcb, hi.2⟩

/-- The initial state satisfies the id invariant, and any operation
sequence preserves it. -/
theorem runOps_inv (ops : List Op) (s : StoreState) (h : s.inv) :
    (runOps s ops).inv := by
  induction ops generalizing s with
  | nil => exact h
  | cons op rest ih => exact ih (applyOp s op) (applyOp_inv s op h)

/-- Every key parse that fed a successful parseSuffixes run appears in
its output. -/
theorem parseSuffixes_mem (keys : List String) (ns : List Nat)
    (h : parseSuffixes keys = Except.ok ns) :
    ∀ k ∈ keys, ∃ m ∈ ns, pyInt (pySlice1 k) = some m := by
  induction keys generalizing ns with
  | nil =>
    intro k hk
    cases hk
  | cons k0 ks ih =>
    intro k hk
    rw [parseSuffixes] at h
    cases hpi : pyInt (pySlice1 k0) with
    | none =>
      rw [hpi] at h
      cases h
    | some n =>
      rw [hpi] at h
      simp only [] at h
      cases hks : parseSuffixes ks with
      | error e =>
        rw [hks] at h
        cases h
      | ok ns2 =>
        rw [hks] at h
        injection h with h2
        subst h2
        rcases List.mem_cons.mp hk with hk | hk
        · subst hk
          exact ⟨n, List.mem_cons_self _ _, hpi⟩
        · obtain ⟨m, hm, hpm⟩ := ih ns2 hks k hk
          exact ⟨m, List.mem_cons_of_mem _ hm, hpm⟩

/-- The fold of Nat.max dominates its start and every element. -/
theorem foldl_max_bound (ns : List Nat) (a : Nat) :
    a ≤ ns.foldl Nat.max a ∧ ∀ m ∈ ns, m ≤ ns.foldl Nat.max a := by
  induction ns generalizing a with
  | nil => simp
  | cons x xs ih =>
    have h := ih (Nat.max a x)
    refine ⟨le_trans (Nat.le_max_left a x) h.1, ?_⟩
    intro m hm
    rcases List.mem_cons.mp hm with hm | hm
    · rw [hm]
      exact le_trans (Nat.le_max_right a x) h.1
    · exact h.2 m hm

/-- A successful counterFromKeys run strictly dominates every key
suffix. -/
theorem counter_bound (keys : List String) (cc : Nat)
    (h : counterFromKeys keys = Except.ok cc) :
    ∀ k ∈ keys, ∀ m, pyInt (pySlice1 k) = some m → m < cc := by
  unfold counterFromKeys at h
  cases hps : parseSuffixes keys with
  | error e =>
    rw [hps] at h
    cases h
  | ok ns =>
    rw [hps] at h
    injection h with h2
    intro k hk m hm
    obtain ⟨m2, hmem, hm2⟩ := parseSuffixes_mem keys ns hps k hk
    rw [hm] at hm2
    injection hm2 with hmm
    subst hmm
    have := (foldl_max_bound ns 0).2 m hmem
    omega

/-- No key whose suffix parse is strictly bounded can be the prefixed id
built from the bound. -/
theorem fresh_of_counter_bound {α : Type} (d : Dict α) (pre : Char)
    (cc : Nat)
    (hb : ∀ k ∈ d.map Prod.fst, ∀ m, pyInt (pySlice1 k) = some m → m < cc) :
    ∀ p ∈ d, p.1 ≠ String.mk [pre] ++ Nat.repr cc := by
  intro p hp heq
  have hpi : pyInt (pySlice1 p.1) = some cc := by
    rw [heq]
    exact pyInt_pySlice1_id pre cc
  have := hb p.1 (List.mem_map_of_mem Prod.fst hp) cc hpi
  omega

/-- The clients document computed by load_data from its file. -/
def clientsResOf (clients_file : FileContent (Dict Client)) :
    Except Failure (Dict Client) :=
  match clients_file with
  | .absent => .ok []
  | .corrupt => .error .jsonDecodeError
  | .parsed doc => .ok (dictUpdate [] doc)

/-- The appointments collection computed by load_data from its file. -/
def apptsResOf (appts_file : FileContent (Dict SavedAppt)) :
    Except Failure (Dict Appt) :=
  match appts_file with
  | .absent => .ok []
  | .corrupt => .error .jsonDecodeError
  | .parsed doc => loadAppts [] doc

/-- The counter computed by load_data for one collection. -/
def counterResOf {α : Type} (d : Dict α) : Except Failure Nat :=
  if d.isEmpty then .ok 1 else counterFromKeys (d.map Prod.fst)

/-- load_data decomposed into its four stages. -/
theorem load_data_eq (cf : FileContent (Dict Client))
    (af : FileContent (Dict SavedAppt)) :
    load_data cf af =
      match clientsResOf cf with
      | .error e => .error e
      | .ok clients =>
        match apptsResOf af with
        | .error e => .error e
        | .ok appointments =>
          match counterResOf clients with
          | .error e => .error e
          | .ok client_counter =>
            match counterResOf appointments with
            | .error e => .error e
            | .ok appointment_counter =>
              .ok ⟨clients, appointments, client_counter,
                appointment_counter⟩ := rfl

/-- After a successful load, each id built from the reset counter is
absent from its collection. -/
theorem load_data_next_id_fresh (cf : FileContent (Dict Client))
    (af : FileContent (Dict SavedAppt)) (s2 : StoreState)
    (h : load_data cf af = Except.ok s2) :
    (∀ p ∈ s2.clients, p.1 ≠ "c" ++ Nat.repr s2.client_counter) ∧
    (∀ p ∈ s2.appointments, p.1 ≠ "a" ++ Nat.repr s2.appointment_counter) := by
  rw [load_data_eq] at h
  cases hc : clientsResOf cf with
  | error e =>
    rw [hc] at h
    cases h
  | ok clients =>
    rw [hc] at h
    simp only [] at h
    cases ha : apptsResOf af with
    | error e =>
      rw [ha] at h
      cases h
    | ok appointments =>
      rw [ha] at h
      simp only [] at h
      cases hcc : counterResOf clients with
      | error e =>
        rw [hcc] at h
        cases h
      | ok cc =>
        rw [hcc] at h
        simp only [] at h
        cases hac : counterResOf appointments with
        | error e =>
          rw [hac] at h
          cases h
        | ok ac =>
          rw [hac] at h
          simp only [] at h
          injection h with h2
          subst h2
          constructor
          · unfold counterResOf at hcc
            by_cases he : clients.isEmpty
            · have hnil : clients = [] := List.isEmpty_iff.mp he
              intro p hp
              rw [hnil] at hp
              cases hp
            · rw [if_neg he] at hcc
              rw [show ("c" : String) = String.mk ['c'] from rfl]
              exact fresh_of_counter_bound clients 'c' cc
                (counter_bound _ cc hcc)
          · unfold counterResOf at hac
            by_cases he : appointments.isEmpty
            · have hnil : appointments = [] := List.isEmpty_iff.mp he
              intro p hp
              rw [hnil] at hp
              cases hp
            · rw [if_neg he] at hac
              rw [show ("a" : String) = String.mk ['a'] from rfl]
              exact fresh_of_counter_bound appointments 'a' ac
                (counter_bound _ ac hac)

/-- C5: after any sequence of add operations from the initial state the
ids within each collection are pairwise distinct, and whenever load_data
succeeds each counter has been reset beyond every persisted numeric
suffix, so the next generated client and appointment ids collide with no
persisted key. -/
theorem ids_unique (ops : List Op) (cf : FileContent (Dict Client))
    (af : FileContent (Dict SavedAppt)) (s2 : StoreState) :
    ((runOps initialState ops).clients.map Prod.fst).Nodup ∧
    ((runOps initialState ops).appointments.map Prod.fst).Nodup ∧
    (load_data cf af = Except.ok s2 →
      (∀ p ∈ s2.clients, p.1 ≠ "c" ++ Nat.repr s2.client_counter) ∧
      (∀ p ∈ s2.appointments,
        p.1 ≠ "a" ++ Nat.repr s2.appointment_counter)) := by
  have hinit : initialState.inv := by
    refine ⟨by simp [initialState], by simp [initialState], ?_, ?_⟩ <;>
      intro p hp <;> cases hp
  have hrun := runOps_inv ops initialState hinit
  exact ⟨hrun.1, hrun.2.1, load_data_next_id_fresh cf af s2⟩

/-- Witness for C5: two added clients and an appointment from the empty
store, and a load of a persisted client c3, which resets the counter to
4 so that the next id c4 is fresh. -/
theorem ids_unique_witness :
    ((runOps initialState
        [Op.addClient "Ann" "" "", Op.addClient "Bob" "" "",
         Op.addAppointment (some "c1") ⟨2024, 1, 1⟩ ⟨9, 0, 0⟩ ⟨10, 0, 0⟩
           30 6]).clients.map Prod.fst).Nodup ∧
    ((runOps initialState
        [Op.addClient "Ann" "" "", Op.addClient "Bob" "" "",
         Op.addAppointment (some "c1") ⟨2024, 1, 1⟩ ⟨9, 0, 0⟩ ⟨10, 0, 0⟩
           30 6]).appointments.map Prod.fst).Nodup ∧
    ((∀ p ∈ (⟨[("c3", ⟨"Cy", "", ""⟩)], [], 4, 1⟩ : StoreState).clients,
        p.1 ≠ "c" ++ Nat.repr 4) ∧
     (∀ p ∈ (⟨[("c3", ⟨"Cy", "", ""⟩)], [], 4, 1⟩ : StoreState).appointments,
        p.1 ≠ "a" ++ Nat.repr 1)) := by
  have h := ids_unique
    [Op.addClient "Ann" "" "", Op.addClient "Bob" "" "",
     Op.addAppointment (some "c1") ⟨2024, 1, 1⟩ ⟨9, 0, 0⟩ ⟨10, 0, 0⟩ 30 6]
    (FileContent.parsed [("c3", ⟨"Cy", "", ""⟩)]) FileContent.absent
    ⟨[("c3", ⟨"Cy", "", ""⟩)], [], 4, 1⟩
  exact ⟨h.1, h.2.1, h.2.2 rfl⟩

end ApptTimer
